import Mathlib

/-!
Verification of the ALAC encoder (encoders/alac.c) and decoder
(decoders/alac.c) from python-audio-tools, via a shallow embedding of their
integer and bit-level pipeline in Lean.  Bit streams are lists of booleans,
most-significant bit first, matching the big-endian bitstream writer and
reader the codec is built on.  Machine integers are embedded as Nat / Int
with explicit wrapping where the C code relies on it.
-/

namespace Alac

/-- Modelled from the spec: the bitstream writer's N-bit unsigned write
(bitstream.c is not among the provided sources).  Emits the low `n` bits of
`v`, most-significant first. -/
def writeBits : Nat → Nat → List Bool
  | 0, _ => []
  | n + 1, v => v.testBit n :: writeBits n v

/-- Modelled from the spec: the bitstream writer's N-bit signed write,
two's complement. -/
def writeSignedBits (n : Nat) (v : Int) : List Bool :=
  writeBits n (Int.toNat (Int.emod v ((2 : Int) ^ n)))

/-- Modelled from the spec: the bitstream writer's unary write as used by
`write_residual`: `v` one-bits terminated by a single zero bit. -/
def writeUnaryBits (v : Nat) : List Bool :=
  List.replicate v true ++ [false]

/-- Accumulator-style big-endian bit reader: reads `n` bits, `none` on
underrun. -/
def readBitsAux : Nat → Nat → List Bool → Option (Nat × List Bool)
  | 0, acc, s => some (acc, s)
  | _ + 1, _, [] => none
  | n + 1, acc, b :: s => readBitsAux n (2 * acc + (if b then 1 else 0)) s

/-- Modelled from the spec: the bitstream reader's N-bit unsigned read. -/
def readBits (n : Nat) (s : List Bool) : Option (Nat × List Bool) :=
  readBitsAux n 0 s

/-- Fuel-indexed reader for the unary most-significant-bit field: counts
one-bits; exhausting the fuel means the escape pattern was read. -/
def readMSBAux : Nat → List Bool → Option (Option Nat × List Bool)
  | 0, s => some (none, s)
  | _ + 1, [] => none
  | n + 1, b :: s => if b then readMSBAux n s else some (some (8 - n), s)

/-- Modelled from the spec: the decoder's static Huffman table for the unary
MSB field (alac_residual.h is not among the provided sources).  A run of
`m ≤ 8` one-bits terminated by a zero decodes to `m`; nine one-bits decode
to the escape marker, returned as `none`. -/
def readMSB (s : List Bool) : Option (Option Nat × List Bool) :=
  readMSBAux 9 s

/-- Embedding of encoders/alac.c `write_residual`: golomb-like code of
`value` with rice parameter `k` and escape width `sampleSize`. -/
def writeResidual (value k sampleSize : Nat) : List Bool :=
  let msb := value / (2 ^ k - 1)
  let lsb := value % (2 ^ k - 1)
  if 8 < msb then
    writeBits 9 0x1FF ++ writeBits sampleSize value
  else
    writeUnaryBits msb ++
      (if 1 < k then
        (if 0 < lsb then writeBits k (lsb + 1) else writeBits (k - 1) 0)
      else [])

/-- Embedding of decoders/alac.c `read_residual`: the escape marker is
followed by `sampleSize` raw bits; otherwise the unary MSB is combined with
a `k − 1` or `k` bit LSB tail. -/
def readResidual (k sampleSize : Nat) (s : List Bool) :
    Option (Nat × List Bool) :=
  (readMSB s).bind (fun p =>
    p.1.elim (readBits sampleSize p.2) (fun msb =>
      if k = 0 then some (msb, p.2)
      else
        (readBits (k - 1) p.2).bind (fun q =>
          if q.1 = 0 then some (msb * (2 ^ k - 1), q.2)
          else
            (readBits 1 q.2).bind (fun r =>
              some (msb * (2 ^ k - 1) + (2 * q.1 + r.1) - 1, r.2)))))

theorem writeBits_length (n v : Nat) : (writeBits n v).length = n := by
  induction n generalizing v with
  | zero => rfl
  | succ k ih => simp [writeBits, ih]

theorem writeBits_succ_eq (n v : Nat) :
    writeBits (n + 1) v = writeBits n (v / 2) ++ [v.testBit 0] := by
  induction n generalizing v with
  | zero => rfl
  | succ k ih =>
    have h1 : writeBits (k + 2) v = v.testBit (k + 1) :: writeBits (k + 1) v := rfl
    have h2 : writeBits (k + 1) (v / 2) =
        (v / 2).testBit k :: writeBits k (v / 2) := rfl
    rw [h1, h2, ih v]
    have h3 : (v / 2).testBit k = v.testBit (k + 1) := by
      rw [Nat.testBit_div_two]
    rw [h3]
    rfl

theorem writeBits_pred_split (n v : Nat) (h : 1 ≤ n) :
    writeBits n v = writeBits (n - 1) (v / 2) ++ [v.testBit 0] := by
  cases n with
  | zero => omega
  | succ m => simpa using writeBits_succ_eq m v

theorem readBitsAux_writeBits (n : Nat) :
    ∀ (v acc : Nat) (s : List Bool),
    readBitsAux n acc (writeBits n v ++ s) = some (acc * 2 ^ n + v % 2 ^ n, s) := by
  induction n with
  | zero => intro v acc s; simp [writeBits, readBitsAux, Nat.mod_one]
  | succ k ih =>
    intro v acc s
    have hw : writeBits (k + 1) v = v.testBit k :: writeBits k v := rfl
    rw [hw]
    have hstep : readBitsAux (k + 1) acc ((v.testBit k :: writeBits k v) ++ s) =
        readBitsAux k (2 * acc + (if v.testBit k then 1 else 0))
          (writeBits k v ++ s) := rfl
    rw [hstep, ih v]
    congr 1
    have hmm : v % 2 ^ (k + 1) = v % 2 ^ k + 2 ^ k * (v / 2 ^ k % 2) := by
      rw [pow_succ]
      exact Nat.mod_mul
    rcases Nat.mod_two_eq_zero_or_one (v / 2 ^ k) with h | h
    · have hb : v.testBit k = false := by
        rw [Nat.testBit_to_div_mod]
        simp [h]
      rw [hb, hmm, h, pow_succ]
      simp
      ring
    · have hb : v.testBit k = true := by
        rw [Nat.testBit_to_div_mod]
        simp [h]
      rw [hb, hmm, h, pow_succ]
      simp
      ring

theorem readBits_writeBits (n v : Nat) (s : List Bool) (hv : v < 2 ^ n) :
    readBits n (writeBits n v ++ s) = some (v, s) := by
  unfold readBits
  rw [readBitsAux_writeBits]
  simp [Nat.mod_eq_of_lt hv]

theorem readMSBAux_replicate (m : Nat) :
    ∀ (fuel : Nat) (s : List Bool), m < fuel →
    readMSBAux fuel (List.replicate m true ++ false :: s) =
      some (some (8 - (fuel - 1 - m)), s) := by
  induction m with
  | zero =>
    intro fuel s hm
    cases fuel with
    | zero => omega
    | succ f => simp [readMSBAux]
  | succ j ih =>
    intro fuel s hm
    cases fuel with
    | zero => omega
    | succ f =>
      have hrep : List.replicate (j + 1) true ++ false :: s =
          true :: (List.replicate j true ++ false :: s) := by
        simp [List.replicate_succ]
      rw [hrep]
      have hstep : readMSBAux (f + 1) (true :: (List.replicate j true ++ false :: s)) =
          readMSBAux f (List.replicate j true ++ false :: s) := by
        simp [readMSBAux]
      rw [hstep, ih f s (by omega)]
      have he : 8 - (f - 1 - j) = 8 - (f + 1 - 1 - (j + 1)) := by omega
      rw [he]

theorem readMSB_replicate (m : Nat) (s : List Bool) (hm : m ≤ 8) :
    readMSB (List.replicate m true ++ false :: s) = some (some m, s) := by
  unfold readMSB
  rw [readMSBAux_replicate m 9 s (by omega)]
  have he : 8 - (9 - 1 - m) = m := by omega
  rw [he]

/-- C7: for every unsigned value `v`, rice parameter `k ≥ 1`, and escape
width `W`, if `v / (2^k − 1) ≤ 8` the decoder's `read_residual` applied to
the bits produced by `write_residual v k W` returns exactly `v`, leaving the
rest of the stream untouched. -/
theorem read_write_residual_roundtrip (v k W : Nat) (s : List Bool)
    (hk : 1 ≤ k) (hv : v / (2 ^ k - 1) ≤ 8) :
    readResidual k W (writeResidual v k W ++ s) = some (v, s) := by
  have hkpow : 2 ≤ 2 ^ k := by
    calc (2 : Nat) = 2 ^ 1 := by norm_num
    _ ≤ 2 ^ k := Nat.pow_le_pow_right (by omega) hk
  have hdm := Nat.div_add_mod v (2 ^ k - 1)
  have hk0 : ¬ (k = 0) := by omega
  rcases Nat.lt_or_ge k 2 with hk1 | hk2
  · -- k = 1
    have hke : k = 1 := by omega
    subst hke
    have hw : writeResidual v 1 W ++ s =
        List.replicate (v / (2 ^ 1 - 1)) true ++ false :: s := by
      unfold writeResidual writeUnaryBits
      simp only [if_neg (by omega : ¬ 8 < v / (2 ^ 1 - 1)),
        if_neg (by omega : ¬ 1 < 1), List.append_nil, List.append_assoc,
        List.singleton_append]
    rw [hw]
    unfold readResidual
    rw [readMSB_replicate _ _ hv]
    have hr0 : readBits (1 - 1) s = some (0, s) := rfl
    simp only [Option.bind_eq_bind, Option.some_bind, Option.elim, hr0,
      if_neg hk0]
    have hvv : v / (2 ^ 1 - 1) * (2 ^ 1 - 1) = v := by
      have h1 : (2 : Nat) ^ 1 - 1 = 1 := by norm_num
      rw [h1] at hdm ⊢
      omega
    rw [hvv]
    simp
  · -- 2 ≤ k
    have hklt : 1 < k := by omega
    have hlsb : v % (2 ^ k - 1) < 2 ^ k - 1 := Nat.mod_lt v (by
      have h4 : 4 ≤ 2 ^ k := by
        calc (4 : Nat) = 2 ^ 2 := by norm_num
        _ ≤ 2 ^ k := Nat.pow_le_pow_right (by omega) hk2
      omega)
    rcases Nat.eq_zero_or_pos (v % (2 ^ k - 1)) with hz | hpos
    · -- lsb = 0
      have hw : writeResidual v k W ++ s =
          List.replicate (v / (2 ^ k - 1)) true ++ false ::
            (writeBits (k - 1) 0 ++ s) := by
        unfold writeResidual writeUnaryBits
        simp only [if_neg (by omega : ¬ 8 < v / (2 ^ k - 1)), if_pos hklt,
          hz, if_neg (by omega : ¬ 0 < 0), List.append_assoc,
          List.singleton_append]
        simp
      rw [hw]
      unfold readResidual
      rw [readMSB_replicate _ _ hv]
      have hr : readBits (k - 1) (writeBits (k - 1) 0 ++ s) = some (0, s) :=
        readBits_writeBits _ 0 s (by positivity)
      simp only [Option.bind_eq_bind, Option.some_bind, Option.elim, hr,
        if_neg hk0]
      have hvv : v / (2 ^ k - 1) * (2 ^ k - 1) = v :=
        Nat.div_mul_cancel (Nat.dvd_of_mod_eq_zero hz)
      rw [hvv]
      simp
    · -- lsb > 0
      have hks : k - 1 + 1 = k := by omega
      have hsplit : writeBits k (v % (2 ^ k - 1) + 1) =
          writeBits (k - 1) ((v % (2 ^ k - 1) + 1) / 2) ++
            [(v % (2 ^ k - 1) + 1).testBit 0] :=
        writeBits_pred_split k (v % (2 ^ k - 1) + 1) (by omega)
      have hw : writeResidual v k W ++ s =
          List.replicate (v / (2 ^ k - 1)) true ++ false ::
            (writeBits (k - 1) ((v % (2 ^ k - 1) + 1) / 2) ++
              ((v % (2 ^ k - 1) + 1).testBit 0 :: s)) := by
        unfold writeResidual writeUnaryBits
        simp only [if_neg (by omega : ¬ 8 < v / (2 ^ k - 1)), if_pos hklt,
          if_pos hpos, hsplit, List.append_assoc, List.singleton_append,
          List.cons_append, List.nil_append]
      rw [hw]
      unfold readResidual
      rw [readMSB_replicate _ _ hv]
      have hhalf : (v % (2 ^ k - 1) + 1) / 2 < 2 ^ (k - 1) := by
        have hub : v % (2 ^ k - 1) + 1 < 2 ^ k := by omega
        have h2 : (2 : Nat) ^ k = 2 ^ (k - 1) * 2 := by
          rw [← pow_succ, hks]
        omega
      have hr : readBits (k - 1)
          (writeBits (k - 1) ((v % (2 ^ k - 1) + 1) / 2) ++
            ((v % (2 ^ k - 1) + 1).testBit 0 :: s)) =
          some ((v % (2 ^ k - 1) + 1) / 2,
            (v % (2 ^ k - 1) + 1).testBit 0 :: s) :=
        readBits_writeBits _ _ _ hhalf
      have hb : readBits 1 ((v % (2 ^ k - 1) + 1).testBit 0 :: s) =
          some ((v % (2 ^ k - 1) + 1) % 2, s) := by
        have htb : (v % (2 ^ k - 1) + 1).testBit 0 =
            decide ((v % (2 ^ k - 1) + 1) % 2 = 1) := by
          rw [Nat.testBit_to_div_mod]
          simp
        rw [htb]
        rcases Nat.mod_two_eq_zero_or_one (v % (2 ^ k - 1) + 1) with h | h <;>
          simp [readBits, readBitsAux, h]
      simp only [Option.bind_eq_bind, Option.some_bind, Option.elim, hr, hb,
        if_neg hk0, if_neg (by omega : ¬ (v % (2 ^ k - 1) + 1) / 2 = 0)]
      have hdm2 : v / (2 ^ k - 1) * (2 ^ k - 1) + v % (2 ^ k - 1) = v :=
        Nat.div_add_mod' v (2 ^ k - 1)
      have hfin : (v / (2 ^ k - 1)) * (2 ^ k - 1) +
          (2 * ((v % (2 ^ k - 1) + 1) / 2) + (v % (2 ^ k - 1) + 1) % 2) - 1
          = v := by omega
      rw [hfin]

/-- Arithmetic shift right of a (signed) machine integer, i.e. floor
division by `2^n`; this is what C's right shift does on the int64 values
the codec shifts. -/
def asr (x : Int) (n : Nat) : Int :=
  Int.fdiv x ((2 : Int) ^ n)

/-- Two's-complement wrap of an int64 value stored into a 32-bit int, as in
the casts `(int)leftweight` of both channel transforms. -/
def wrap32 (x : Int) : Int :=
  Int.emod (x + 2 ^ 31) (2 ^ 32) - 2 ^ 31

/-- Embedding of encoders/alac.c `TRUNCATE_BITS`: mask to the low `bits`
bits (two's complement) and sign-extend from bit `bits − 1`. -/
def TRUNCATE_BITS (value : Int) (bits : Nat) : Int :=
  let truncated := Int.emod value ((2 : Int) ^ bits)
  if truncated < 2 ^ (bits - 1) then truncated else truncated - 2 ^ bits

/-- Embedding of `SIGN_ONLY` (both source files define it identically). -/
def SIGN_ONLY (value : Int) : Int :=
  if 0 < value then 1 else if value < 0 then -1 else 0

/-- The sign-magnitude interleaved fold of a residual to unsigned, as
computed at the top of `encode_residuals`. -/
def foldResidual (r : Int) : Nat :=
  if 0 ≤ r then (2 * r).toNat else (-2 * r - 1).toNat

/-- Bit length of a natural number, written with explicit fuel so that it
is structurally recursive and evaluates inside the kernel; the fuel `n`
itself is always sufficient. -/
def bitLenAux : Nat → Nat → Nat
  | 0, _ => 0
  | fuel + 1, n => if n = 0 then 0 else bitLenAux fuel (n / 2) + 1

/-- Bit length: 0 for 0, otherwise one more than the floor of log2. -/
def bitLen (n : Nat) : Nat :=
  bitLenAux n n

/-- Embedding of the encoder's `LOG2` on an unsigned operand: bit length
minus one.  On 0 the C code returns `(unsigned)(0 - 1)`, i.e. `2^32 − 1`
(its assert is compiled out in release builds). -/
def encLOG2 (v : Nat) : Nat :=
  if v = 0 then 2 ^ 32 - 1 else bitLen v - 1

/-- The rice parameter `min(LOG2((history >> 9) + 3), maximum_k)` computed
before coding each residual.  The encoder passes the int expression to its
unsigned `LOG2`, hence the mod-`2^32` conversion; for the nonnegative
histories that actually occur, encoder and decoder compute the same value. -/
def riceK (mk : Nat) (h : Int) : Nat :=
  min (encLOG2 (Int.toNat (Int.emod (asr h 9 + 3) (2 ^ 32)))) mk

/-- The zero-run rice parameter
`min(7 − LOG2(history) + ((history + 16) >> 6), maximum_k)`, evaluated in
unsigned 32-bit arithmetic as the encoder does; for history in `[0, 128)`
this coincides with the decoder's int computation. -/
def zeroRunK (mk : Nat) (h : Int) : Nat :=
  min ((7 + (2 ^ 32 - encLOG2 (Int.toNat (Int.emod h (2 ^ 32)))) +
        Int.toNat (Int.emod (asr (h + 16) 6) (2 ^ 32))) % 2 ^ 32) mk

/-- The shared history update
`history += u·mult − ((history·mult) >> 9)` both coders apply when the
folded residual is at most `0xFFFF`. -/
def histUpdate (m : Nat) (h : Int) (u : Nat) : Int :=
  h + (u * m : Nat) - asr (h * (m : Int)) 9

/-- Number of leading zero residuals, as counted by the encoder's zero-run
loop. -/
def leadingZeroCount : List Int → Nat
  | [] => 0
  | r :: rest => if r = 0 then leadingZeroCount rest + 1 else 0

/-- The residual-coder parameters of `struct alac_context.options` /
`struct alac_parameters`. -/
structure ResidualParams where
  initialHistory : Nat
  historyMultiplier : Nat
  maximumK : Nat
deriving DecidableEq

/-- Loop body of encoders/alac.c `encode_residuals`, structurally recursive
on a fuel that the caller sets to the residual count (each iteration
consumes at least one residual, so the fuel never runs out from the top
entry point).  State: history, sign_modifier, remaining residuals.  An
`Except.error` is the residual-overflow longjmp. -/
def encodeResidualsGo (m mk n : Nat) :
    Nat → Int → Nat → List Int → Except Unit (List Bool)
  | _, _, _, [] => Except.ok []
  | 0, _, _, _ :: _ => Except.ok []
  | fuel + 1, h, sm, r :: rest =>
    let u := foldResidual r
    if 2 ^ n ≤ u then Except.error ()
    else
      let b1 := writeResidual (u - sm) (riceK mk h) n
      if u ≤ 0xFFFF then
        let h2 := histUpdate m h u
        if h2 < 128 ∧ rest ≠ [] then
          let z := leadingZeroCount rest
          let b2 := writeResidual z (zeroRunK mk h2) 16
          let sm2 := if z < 0xFFFF then 1 else 0
          (encodeResidualsGo m mk n fuel 0 sm2 (rest.drop z)).map
            (fun tail => b1 ++ (b2 ++ tail))
        else
          (encodeResidualsGo m mk n fuel h2 0 rest).map (fun tail => b1 ++ tail)
      else
        (encodeResidualsGo m mk n fuel 0xFFFF 0 rest).map (fun tail => b1 ++ tail)

/-- Embedding of encoders/alac.c `encode_residuals`. -/
def encodeResiduals (p : ResidualParams) (n : Nat) (residuals : List Int) :
    Except Unit (List Bool) :=
  encodeResidualsGo p.historyMultiplier p.maximumK n residuals.length
    (p.initialHistory : Int) 0 residuals

/-- Loop body of decoders/alac.c `read_residual_block`, structurally
recursive on a fuel the caller sets to the block size (each iteration
stores at least one residual).  `rem` is the number of residual slots still
to fill, i.e. `block_size − i`. -/
def readResidualBlockGo (m mk n : Nat) :
    Nat → Nat → Int → Nat → List Bool → Option (List Int × List Bool)
  | _, 0, _, _, s => some ([], s)
  | 0, _ + 1, _, _, _ => none
  | fuel + 1, rem + 1, h, sm, s =>
    (readResidual (riceK mk h) n s).bind (fun p =>
      let u := p.1 + sm
      let r : Int := if u % 2 = 1 then -(((u + 1) / 2 : Nat) : Int)
                     else ((u / 2 : Nat) : Int)
      let h2 : Int := if 0xFFFF < u then 0xFFFF else histUpdate m h u
      if h2 < 128 ∧ 2 ≤ rem then
        (readResidual (zeroRunK mk h2) 16 p.2).bind (fun q =>
          let z := min q.1 rem
          let sm2 := if z ≤ 0xFFFF then 1 else 0
          (readResidualBlockGo m mk n fuel (rem - z) 0 sm2 q.2).map
            (fun t => (r :: (List.replicate z 0 ++ t.1), t.2)))
      else
        (readResidualBlockGo m mk n fuel rem h2 0 p.2).map
          (fun t => (r :: t.1, t.2)))

/-- Embedding of decoders/alac.c `read_residual_block`: fills `blockSize`
residual slots from the bit stream, clamping any decoded zero-run length to
the remaining slot count. -/
def readResidualBlock (p : ResidualParams) (n blockSize : Nat)
    (s : List Bool) : Option (List Int × List Bool) :=
  readResidualBlockGo p.historyMultiplier p.maximumK n blockSize blockSize
    (p.initialHistory : Int) 0 s

/-- The default residual-coder options the encoder entry points use:
initial_history 10, history_multiplier 40, maximum_k 14. -/
def defaultParams : ResidualParams :=
  { initialHistory := 10, historyMultiplier := 40, maximumK := 14 }

/-- C2 (failing input): the encoder and decoder residual coders do not run
the same state machine.  After emitting a residual the encoder enters the
zero-run branch whenever `history < 128` and at least one residual remains
(`i < residual_count`), while the decoder requires at least two remaining
slots (`(i + 1) < block_size`).  Concretely: for the residual block
`[0, 1]` at sample size 16 and the default options, the encoder emits a
zero-run length code that the decoder never reads, so the decoder returns
`[0, 0]` and leaves five bits of the seven-bit stream unconsumed. -/
theorem encode_decode_residual_desync :
    (encodeResiduals defaultParams 16 [0, 1]).toOption =
      some [false, false, false, false, false, true, false] ∧
    readResidualBlock defaultParams 16 2
      [false, false, false, false, false, true, false] =
      some ([0, 0], [false, false, false, true, false]) ∧
    ([0, 0] : List Int) ≠ [0, 1] := by
  refine ⟨by decide, by decide, by decide⟩

theorem readResidualBlockGo_length (m mk n : Nat) :
    ∀ (fuel rem : Nat) (h : Int) (sm : Nat) (s : List Bool)
      (res : List Int) (rest : List Bool),
    readResidualBlockGo m mk n fuel rem h sm s = some (res, rest) →
    res.length ≤ rem := by
  intro fuel
  induction fuel with
  | zero =>
    intro rem h sm s res rest hr
    cases rem with
    | zero =>
      simp only [readResidualBlockGo, Option.some.injEq, Prod.mk.injEq] at hr
      simp [← hr.1]
    | succ r => simp [readResidualBlockGo] at hr
  | succ f ih =>
    intro rem h sm s res rest hr
    cases rem with
    | zero =>
      simp only [readResidualBlockGo, Option.some.injEq, Prod.mk.injEq] at hr
      simp [← hr.1]
    | succ r =>
      rw [readResidualBlockGo] at hr
      cases h1 : readResidual (riceK mk h) n s with
      | none => rw [h1] at hr; simp at hr
      | some p =>
        rw [h1] at hr
        simp only [Option.some_bind] at hr
        by_cases hc : ((if 0xFFFF < p.1 + sm then (0xFFFF : Int)
            else histUpdate m h (p.1 + sm)) < 128 ∧ 2 ≤ r)
        · rw [if_pos hc] at hr
          cases h2 : readResidual
              (zeroRunK mk (if 0xFFFF < p.1 + sm then (0xFFFF : Int)
                else histUpdate m h (p.1 + sm))) 16 p.2 with
          | none => rw [h2] at hr; simp at hr
          | some q =>
            rw [h2] at hr
            simp only [Option.some_bind, Option.map_eq_some'] at hr
            obtain ⟨t, ht, hval⟩ := hr
            have hlen := ih (r - min q.1 r) 0 _ q.2 t.1 t.2 (by
              rw [ht])
            have hz : min q.1 r ≤ r := Nat.min_le_right _ _
            have : res = (if (p.1 + sm) % 2 = 1
                then -(((p.1 + sm + 1) / 2 : Nat) : Int)
                else (((p.1 + sm) / 2 : Nat) : Int)) ::
                  (List.replicate (min q.1 r) 0 ++ t.1) := by
              have hp := hval
              simp only [Prod.mk.injEq] at hp
              exact hp.1.symm
            rw [this]
            simp only [List.length_cons, List.length_append,
              List.length_replicate]
            omega
        · rw [if_neg hc] at hr
          simp only [Option.map_eq_some'] at hr
          obtain ⟨t, ht, hval⟩ := hr
          have hlen := ih r _ 0 p.2 t.1 t.2 (by rw [ht])
          have : res = (if (p.1 + sm) % 2 = 1
              then -(((p.1 + sm + 1) / 2 : Nat) : Int)
              else (((p.1 + sm) / 2 : Nat) : Int)) :: t.1 := by
            have hp := hval
            simp only [Prod.mk.injEq] at hp
            exact hp.1.symm
          rw [this]
          simp only [List.length_cons]
          omega

/-- C10: for every input bit stream and every block size,
`read_residual_block` never stores more than `block_size` residuals: the
decoded zero-run length is clamped to the number of remaining slots, so the
number of residuals produced is bounded by the block size no matter what
run length the stream encodes. -/
theorem read_residual_block_length_bound (p : ResidualParams)
    (n blockSize : Nat) (s : List Bool) (res : List Int) (rest : List Bool)
    (h : readResidualBlock p n blockSize s = some (res, rest)) :
    res.length ≤ blockSize :=
  readResidualBlockGo_length p.historyMultiplier p.maximumK n blockSize
    blockSize (p.initialHistory : Int) 0 s res rest h

/-- Witness for C10 at a concrete stream and block size 2. -/
theorem read_residual_block_length_bound_witness :
    ([0, 0] : List Int).length ≤ 2 :=
  read_residual_block_length_bound defaultParams 16 2
    [false, false, false, false, false, true, false] [0, 0]
    [false, false, false, true, false] (by decide)

/-- The shared coefficient-adaptation loop of `calculate_residuals`
(encoder, shift 9, sample history) and `decode_subframe` (decoder,
`shift_needed`, reconstructed history).  `pos` selects the positive- or
negative-error variant; the fuel is the order, `j` the loop counter, and
the loop breaks as soon as the running error crosses zero. -/
def adaptGo (shift order : Nat) (base : Int) (look : Nat → Int)
    (pos : Bool) : Nat → Nat → List Int → Int → List Int
  | 0, _, coeffs, _ => coeffs
  | fuel + 1, j, coeffs, err =>
    let diff := base - look j
    let delta := if pos then SIGN_ONLY diff else -(SIGN_ONLY diff)
    let idx := order - j - 1
    let coeffs2 := coeffs.set idx (coeffs.getD idx 0 - delta)
    let err2 := err - asr (diff * delta) shift * (j + 1)
    if (pos ∧ err2 ≤ 0) ∨ (¬ pos ∧ 0 ≤ err2) then coeffs2
    else adaptGo shift order base look pos fuel (j + 1) coeffs2 err2

/-- Dispatch on the sign of the error, as both adaptation call sites do;
an error of zero leaves the coefficients untouched. -/
def adaptCoeffs (shift order : Nat) (base : Int) (look : Nat → Int)
    (coeffs : List Int) (err : Int) : List Int :=
  if 0 < err then adaptGo shift order base look true order 0 coeffs err
  else if err < 0 then adaptGo shift order base look false order 0 coeffs err
  else coeffs

/-- The LPC accumulation `Σ c[j]·(hist(j) − base)` over `j < cnt`, shared
by encoder and decoder. -/
def lpcSumGo (look : Nat → Int) (base : Int) (coeffs : List Int) :
    Nat → Nat → Int
  | _, 0 => 0
  | j, cnt + 1 =>
    coeffs.getD j 0 * (look j - base) + lpcSumGo look base coeffs (j + 1) cnt

/-- The main loop of encoders/alac.c `calculate_residuals` for
`i = order+1 .. sample_count−1`: 64-bit LPC prediction with round bias
`1 << 8`, shift 9, truncation to `sample_size` bits, then coefficient
adaptation driven by the truncated error. -/
def calcResMain (n : Nat) (samples : List Int) (order : Nat) :
    List Int → Nat → List Int → List Int
  | [], _, _ => []
  | cur :: restS, i, coeffs =>
    let base := samples.getD (i - order - 1) 0
    let look := fun j => samples.getD (i - j - 1) 0
    let lpc := asr ((2 ^ 8 : Int) + lpcSumGo look base coeffs 0 order) 9
    let err := TRUNCATE_BITS (cur - base - lpc) n
    let lookAdapt := fun j => samples.getD (i - order + j) 0
    let coeffs2 := adaptCoeffs 9 order base lookAdapt coeffs err
    err :: calcResMain n samples order restS (i + 1) coeffs2

/-- Embedding of encoders/alac.c `calculate_residuals`: first sample
verbatim, warm-up as truncated first differences for `i = 1..order`, then
the adaptive LPC loop (the `order ≥ 31` fallback is all first
differences). -/
def calculateResiduals (n : Nat) (samples : List Int) (order : Nat)
    (qlp : List Int) : List Int :=
  if order < 31 then
    samples.getD 0 0 ::
      ((List.range order).map (fun t =>
        TRUNCATE_BITS (samples.getD (t + 1) 0 - samples.getD t 0) n) ++
       calcResMain n samples order (samples.drop (order + 1)) (order + 1) qlp)
  else
    samples.getD 0 0 ::
      (List.range (samples.length - 1)).map (fun t =>
        TRUNCATE_BITS (samples.getD (t + 1) 0 - samples.getD t 0) n)

theorem TRUNCATE_BITS_range (v : Int) (n : Nat) (hn : 1 ≤ n) :
    -(2 ^ (n - 1) : Int) ≤ TRUNCATE_BITS v n ∧
      TRUNCATE_BITS v n < 2 ^ (n - 1) := by
  unfold TRUNCATE_BITS
  have hpos : (0 : Int) < 2 ^ n := by positivity
  have h0 : (0 : Int) ≤ Int.emod v (2 ^ n) := Int.emod_nonneg v (by omega)
  have h1 : Int.emod v (2 ^ n) < 2 ^ n := Int.emod_lt_of_pos v hpos
  have h2 : (2 : Int) ^ n = 2 ^ (n - 1) * 2 := by
    rw [← pow_succ]
    congr 1
    omega
  by_cases hlt : Int.emod v (2 ^ n) < 2 ^ (n - 1)
  · rw [if_pos hlt]
    constructor
    · have : (0 : Int) ≤ 2 ^ (n - 1) := by positivity
      omega
    · exact hlt
  · rw [if_neg hlt]
    push_neg at hlt
    omega

/-- C3 (amended): for every residual `r` emitted by `calculate_residuals`
and every `sample_size n ≥ 1`, the truncated value satisfies
`|TRUNCATE_BITS(r, n)| ≤ 2^(n−1)` — the bound is attained (with equality)
at `−2^(n−1)`, so the strict bound of the original claim fails. -/
theorem truncated_residuals_bounded (n : Nat) (samples : List Int)
    (order : Nat) (qlp : List Int) (r : Int) (hn : 1 ≤ n)
    (hr : r ∈ calculateResiduals n samples order qlp) :
    (TRUNCATE_BITS r n).natAbs ≤ 2 ^ (n - 1) := by
  obtain ⟨hlo, hhi⟩ := TRUNCATE_BITS_range r n hn
  have hcast : ((2 ^ (n - 1) : Nat) : Int) = (2 : Int) ^ (n - 1) := by
    push_cast
    ring
  omega

/-- Witness for C3 (amended) at the concrete emitted residual `−32768`. -/
theorem truncated_residuals_bounded_witness :
    (TRUNCATE_BITS (-32768) 16).natAbs ≤ 2 ^ (16 - 1) :=
  truncated_residuals_bounded 16 [0, -32768, 0, 0, 0, 0, 0, 0, 0, 0] 4
    [0, 0, 0, 0] (-32768) (by omega) (by decide)

/-- C3 (counterexample to the claim as stated): on the ten-sample block
`[0, −32768, 0, …, 0]` at sample size 16 with zero coefficients,
`calculate_residuals` emits the warm-up residual `−32768`, whose truncated
absolute value is exactly `2^15`, not strictly below it. -/
theorem truncated_residual_strict_bound_fails :
    (calculateResiduals 16 [0, -32768, 0, 0, 0, 0, 0, 0, 0, 0] 4
        [0, 0, 0, 0]).getD 1 0 = -32768 ∧
    ¬ ((TRUNCATE_BITS (-32768) 16).natAbs < 2 ^ (16 - 1)) := by
  constructor
  · decide
  · decide

/-- The on-the-wire subframe header of decoders/alac.c. -/
structure SubframeHeader where
  predictionType : Nat
  shiftNeeded : Nat
  riceModifier : Nat
  coeffCount : Nat
  coeff : List Int

/-- Running prefix sums starting from an accumulator: the decoder's warm-up
recurrence `subframe[i] = residual[i] + subframe[i−1]`. -/
def prefixSumsFrom : Int → List Int → List Int
  | _, [] => []
  | acc, r :: rest => (acc + r) :: prefixSumsFrom (acc + r) rest

/-- The main loop of decoders/alac.c `decode_subframe` for
`i = coeff_count+1 .. block_size−1`.  `prevRev` is the already-reconstructed
prefix, most recent sample first, so `prevRev[j] = subframe[i−j−1]`.  The
rounded LPC prediction uses bias `1 << (shift−1)` and the header's shift;
adaptation runs on the incoming residual. -/
def dsMain (shift cc : Nat) : List Int → List Int → List Int → List Int
  | _, _, [] => []
  | coeffs, prevRev, r :: rest =>
    let base := prevRev.getD cc 0
    let look := fun j => prevRev.getD j 0
    let qlpSum := asr (lpcSumGo look base coeffs 0 cc + (2 ^ (shift - 1) : Int))
      shift
    let sNew := qlpSum + r + base
    let lookAdapt := fun j => prevRev.getD (cc - 1 - j) 0
    let coeffs2 := adaptCoeffs shift cc base lookAdapt coeffs r
    sNew :: dsMain shift cc coeffs2 (sNew :: prevRev) rest

/-- Embedding of decoders/alac.c `decode_subframe`: warm-up of
`coeff_count + 1` prefix sums, then the adaptive LPC reconstruction. -/
def decodeSubframe (blockSize : Nat) (hdr : SubframeHeader)
    (residuals : List Int) : List Int :=
  let rs := residuals.take blockSize
  let cc := hdr.coeffCount
  let warm := prefixSumsFrom 0 (rs.take (cc + 1))
  warm ++ dsMain hdr.shiftNeeded cc hdr.coeff warm.reverse (rs.drop (cc + 1))

theorem asr_eq_ediv (x : Int) (n : Nat) : asr x n = x / 2 ^ n :=
  Int.fdiv_eq_ediv x (by positivity)

theorem asr_small (x : Int) (n : Nat) (h0 : 0 ≤ x) (h1 : x < 2 ^ n) :
    asr x n = 0 := by
  rw [asr_eq_ediv]
  exact Int.ediv_eq_zero_of_lt h0 h1

theorem dsMain_coeff_count_zero (shift : Nat) (hs : 1 ≤ shift) :
    ∀ (rs : List Int) (coeffs prevRev : List Int),
    dsMain shift 0 coeffs prevRev rs =
      prefixSumsFrom (prevRev.getD 0 0) rs := by
  intro rs
  induction rs with
  | nil => intro coeffs prevRev; rfl
  | cons r rest ih =>
    intro coeffs prevRev
    rw [dsMain, prefixSumsFrom]
    have hsum : lpcSumGo (fun j => prevRev.getD j 0) (prevRev.getD 0 0)
        coeffs 0 0 = 0 := rfl
    have hq : asr ((0 : Int) + (2 ^ (shift - 1) : Int)) shift = 0 := by
      apply asr_small
      · positivity
      · have h2 : (2 : Int) ^ shift = 2 ^ (shift - 1) * 2 := by
          rw [← pow_succ]
          congr 1
          omega
        have hp : (0 : Int) < 2 ^ (shift - 1) := by positivity
        omega
    have hadapt : adaptCoeffs shift 0 (prevRev.getD 0 0)
        (fun j => prevRev.getD (0 - 1 - j) 0) coeffs r = coeffs := by
      unfold adaptCoeffs adaptGo
      rcases lt_trichotomy (0 : Int) r with h | h | h
      · rw [if_pos h]
      · rw [if_neg (by omega), if_neg (by omega)]
      · rw [if_neg (by omega), if_pos h]
    simp only [hsum, hq, hadapt, ih]
    have hhead : ((0 + r + prevRev.getD 0 0) :: prevRev).getD 0 0 =
        0 + r + prevRev.getD 0 0 := rfl
    rw [hhead]
    have he : (0 : Int) + r + prevRev.getD 0 0 = prevRev.getD 0 0 + r := by
      ring
    rw [he]

theorem prefixSumsFrom_getD (l : List Int) :
    ∀ (acc : Int) (i : Nat), i < l.length →
    (prefixSumsFrom acc l).getD i 0 = acc + (l.take (i + 1)).sum := by
  induction l with
  | nil => intro acc i hi; simp at hi
  | cons r rest ih =>
    intro acc i hi
    cases i with
    | zero => simp [prefixSumsFrom]
    | succ j =>
      rw [prefixSumsFrom]
      have hstep : ((acc + r) :: prefixSumsFrom (acc + r) rest).getD (j + 1) 0 =
          (prefixSumsFrom (acc + r) rest).getD j 0 := rfl
      rw [hstep, ih (acc + r) j (by simpa using hi)]
      simp [List.take_succ_cons]
      ring

/-- C9: for every residual array and every subframe header with
`coeff_count = 0` (and a well-formed shift, which the encoder always sets
to 9), `decode_subframe` produces the prefix sums of the residuals:
`subframe[i] = residual[0] + … + residual[i]` for every `i < block_size`. -/
theorem decode_subframe_prefix_sums (blockSize : Nat) (hdr : SubframeHeader)
    (residuals : List Int) (hcc : hdr.coeffCount = 0)
    (hs : 1 ≤ hdr.shiftNeeded) (hlen : residuals.length = blockSize)
    (i : Nat) (hi : i < blockSize) :
    (decodeSubframe blockSize hdr residuals).getD i 0 =
      (residuals.take (i + 1)).sum := by
  cases residuals with
  | nil => simp at hlen; omega
  | cons r rest =>
    have hbs : (r :: rest).length = blockSize := hlen
    have hds : decodeSubframe blockSize hdr (r :: rest) =
        prefixSumsFrom 0 (r :: rest) := by
      have h0 : decodeSubframe blockSize hdr (r :: rest) =
          prefixSumsFrom 0
              (((r :: rest).take blockSize).take (hdr.coeffCount + 1)) ++
            dsMain hdr.shiftNeeded hdr.coeffCount hdr.coeff
              (prefixSumsFrom 0
                (((r :: rest).take blockSize).take (hdr.coeffCount + 1))).reverse
              (((r :: rest).take blockSize).drop (hdr.coeffCount + 1)) := rfl
      rw [h0, hcc]
      have hrs : (r :: rest).take blockSize = r :: rest := by
        rw [← hbs]
        exact List.take_length _
      rw [hrs]
      have htk : (r :: rest).take (0 + 1) = [r] := rfl
      have hdp : (r :: rest).drop (0 + 1) = rest := rfl
      rw [htk, hdp]
      have hw2 : prefixSumsFrom 0 [r] = [0 + r] := rfl
      rw [hw2]
      rw [dsMain_coeff_count_zero hdr.shiftNeeded hs]
      have hrev : (([0 + r] : List Int).reverse).getD 0 0 = 0 + r := rfl
      rw [hrev]
      have hcat : ([0 + r] : List Int) ++ prefixSumsFrom (0 + r) rest =
          prefixSumsFrom 0 (r :: rest) := rfl
      rw [hcat]
    rw [hds]
    rw [prefixSumsFrom_getD (r :: rest) 0 i (by rw [hbs]; exact hi)]
    exact zero_add _

/-- Witness for C9 at `block_size = 3`, residuals `[1, 2, 3]`, shift 9. -/
theorem decode_subframe_prefix_sums_witness :
    (decodeSubframe 3 ⟨0, 9, 4, 0, []⟩ [1, 2, 3]).getD 1 0 =
      (([1, 2, 3] : List Int).take (1 + 1)).sum :=
  decode_subframe_prefix_sums 3 ⟨0, 9, 4, 0, []⟩ [1, 2, 3] rfl (by decide)
    rfl 1 (by decide)

/-- Embedding of encoders/alac.c `correlate_channels`: for a positive
leftweight, `c0[i] = s1[i] + (int)(((s0[i] − s1[i]) · lw) >> shift)` and
`c1[i] = s0[i] − s1[i]` (the product and shift in int64, the store cast to
int); for leftweight 0 both channels pass through unchanged. -/
def correlateChannels (ch0 ch1 : List Int) (shift lw : Nat) :
    List Int × List Int :=
  if 0 < lw then
    (List.zipWith (fun a b => b + wrap32 (asr ((a - b) * (lw : Int)) shift))
      ch0 ch1,
     List.zipWith (fun a b => a - b) ch0 ch1)
  else
    (ch0, ch1)

/-- Embedding of decoders/alac.c `decorrelate_channels`:
`right[i] = s0[i] − (int)((s1[i] · lw) >> shift)`,
`left[i] = s1[i] + right[i]`; returns `(left, right)` in channel order. -/
def decorrelateChannels (sub0 sub1 : List Int) (shift lw : Nat) :
    List Int × List Int :=
  let right := List.zipWith
    (fun a b => a - wrap32 (asr (b * (lw : Int)) shift)) sub0 sub1
  (List.zipWith (fun b r => b + r) sub1 right, right)

theorem decorrelate_correlate_aux (shift lw : Nat) :
    ∀ (ch0 ch1 : List Int), ch0.length = ch1.length → 0 < lw →
    decorrelateChannels (correlateChannels ch0 ch1 shift lw).1
      (correlateChannels ch0 ch1 shift lw).2 shift lw = (ch0, ch1) := by
  intro ch0
  induction ch0 with
  | nil =>
    intro ch1 hlen hlw
    have h1 : ch1 = [] := by
      cases ch1 with
      | nil => rfl
      | cons x t => simp at hlen
    subst h1
    simp [correlateChannels, decorrelateChannels, if_pos hlw]
  | cons a t0 ih =>
    intro ch1 hlen hlw
    cases ch1 with
    | nil => simp at hlen
    | cons b t1 =>
      have hlen2 : t0.length = t1.length := by simpa using hlen
      have iht := ih t1 hlen2 hlw
      simp only [correlateChannels, decorrelateChannels, if_pos hlw,
        List.zipWith_cons_cons, Prod.mk.injEq] at iht ⊢
      obtain ⟨ihl, ihr⟩ := iht
      constructor
      · rw [ihl]
        simp only [List.cons.injEq]
        exact ⟨by ring, trivial⟩
      · rw [ihr]
        simp only [List.cons.injEq]
        exact ⟨by ring, trivial⟩

/-- C8: for equal-length integer channels, any shift, and any positive
leftweight, `decorrelate_channels` inverts `correlate_channels` exactly
(returning the original pair in channel order); with leftweight 0,
`correlate_channels` passes both channels through unchanged. -/
theorem correlate_decorrelate_roundtrip (ch0 ch1 : List Int)
    (shift lw : Nat) (hlen : ch0.length = ch1.length) :
    (0 < lw →
      decorrelateChannels (correlateChannels ch0 ch1 shift lw).1
        (correlateChannels ch0 ch1 shift lw).2 shift lw = (ch0, ch1)) ∧
    correlateChannels ch0 ch1 shift 0 = (ch0, ch1) := by
  constructor
  · intro hlw
    exact decorrelate_correlate_aux shift lw ch0 ch1 hlen hlw
  · simp [correlateChannels]

/-- Witness for C8 at concrete stereo data, shift 2, leftweight 3. -/
theorem correlate_decorrelate_roundtrip_witness :
    (0 < 3 →
      decorrelateChannels
        (correlateChannels [5, -7, 100] [3, 4, -2] 2 3).1
        (correlateChannels [5, -7, 100] [3, 4, -2] 2 3).2 2 3 =
        ([5, -7, 100], [3, 4, -2])) ∧
    correlateChannels [5, -7, 100] [3, 4, -2] 2 0 =
      ([5, -7, 100], [3, 4, -2]) :=
  correlate_decorrelate_roundtrip [5, -7, 100] [3, 4, -2] 2 3 rfl

/-- Witness for C7 at `v = 23`, `k = 4`, escape width 16. -/
theorem read_write_residual_roundtrip_witness :
    readResidual 4 16 (writeResidual 23 4 16 ++ [true, false]) =
      some (23, [true, false]) :=
  read_write_residual_roundtrip 23 4 16 [true, false] (by omega) (by decide)

/-- The per-stream encoding options of `struct alac_context`. -/
structure AlacOptions where
  blockSize : Nat
  initialHistory : Nat
  historyMultiplier : Nat
  maximumK : Nat
  minLeftweight : Nat
  maxLeftweight : Nat
  bitsPerSample : Nat

/-- The residual-coder slice of the options. -/
def AlacOptions.residualParams (o : AlacOptions) : ResidualParams :=
  { initialHistory := o.initialHistory,
    historyMultiplier := o.historyMultiplier,
    maximumK := o.maximumK }

/-- Concatenation of a list of bit strings (or LSB byte strings). -/
def joinAll {α : Type} (l : List (List α)) : List α :=
  l.foldr (fun a b => a ++ b) []

/-- The floating-point stage of `compute_coefficients` — Tukey windowing,
autocorrelation, Levinson–Durbin recursion and coefficient quantisation —
runs in IEEE doubles (`window_signal`, `autocorrelate`,
`compute_lp_coefficients`, `quantize_coefficients`) and is abstracted as an
oracle producing, for a channel's samples and sample size, whether
`autocorrelated[0]` is nonzero together with the quantised coefficient
vectors at orders 4 and 8.  Everything downstream of the oracle is integer
code embedded from the source. -/
def CoeffOracle : Type :=
  List Int → Nat → Bool × List Int × List Int

/-- Embedding of the decision structure of encoders/alac.c
`compute_coefficients`: with nonzero `autocorrelated[0]`, residuals and
residual blocks are produced at orders 4 and 8 and order 4 wins exactly
when its block is shorter than the order-8 block plus 64 bits; otherwise
the zero-coefficient order-4 special case runs.  A residual overflow in
either encode aborts the whole computation. -/
def computeCoefficients (p : ResidualParams) (orc : CoeffOracle)
    (samples : List Int) (n : Nat) :
    Except Unit (Nat × List Int × List Bool) :=
  let r := orc samples n
  if r.1 then
    let res4 := calculateResiduals n samples 4 r.2.1
    let res8 := calculateResiduals n samples 8 r.2.2
    match encodeResiduals p n res4 with
    | Except.error e => Except.error e
    | Except.ok b4 =>
      match encodeResiduals p n res8 with
      | Except.error e => Except.error e
      | Except.ok b8 =>
        if b4.length < b8.length + 64 then
          Except.ok (4, r.2.1.take 4, b4)
        else
          Except.ok (8, r.2.2.take 8, b8)
  else
    (encodeResiduals p n (calculateResiduals n samples 4 [0, 0, 0, 0])).map
      (fun b => (4, ([0, 0, 0, 0] : List Int), b))

/-- Embedding of `write_subframe_header`: prediction type 0, shift 9, rice
modifier 4, the order, then the signed 16-bit coefficients. -/
def subframeHeaderBits (order : Nat) (qlp : List Int) : List Bool :=
  writeBits 4 0 ++ writeBits 4 9 ++ writeBits 3 4 ++ writeBits 5 order ++
    joinAll ((qlp.take order).map (writeSignedBits 16))

/-- The frame header bits shared by all three frame writers: 16 zero bits,
the has-sample-count flag, the uncompressed-LSB count, the
not-compressed flag, and the optional 32-bit sample count. -/
def frameHeaderBits (opts : AlacOptions) (count lsbU : Nat)
    (compressed : Bool) : List Bool :=
  writeBits 16 0 ++
  (if count = opts.blockSize then writeBits 1 0 else writeBits 1 1) ++
  writeBits 2 lsbU ++
  writeBits 1 (if compressed then 0 else 1) ++
  (if count = opts.blockSize then [] else writeBits 32 count)

/-- Embedding of `write_uncompressed_frame`: header then the samples
interleaved by channel at full depth. -/
def writeUncompressedFrame (opts : AlacOptions)
    (channels : List (List Int)) : List Bool :=
  frameHeaderBits opts (channels.headD []).length 0 false ++
  joinAll ((List.range (channels.headD []).length).map (fun i =>
    joinAll (channels.map (fun ch =>
      writeSignedBits opts.bitsPerSample (ch.getD i 0)))))

/-- The low `bits_per_sample − 16` bits of a sample, as extracted for the
uncompressed-LSB stream. -/
def lsbOf (bps : Nat) (x : Int) : Nat :=
  Int.toNat (Int.emod x ((2 : Int) ^ (bps - 16)))

/-- The sample shifted down by `bits_per_sample − 16`, the part the
predictor sees for depths above 16. -/
def msbOf (bps : Nat) (x : Int) : Int :=
  asr x (bps - 16)

/-- The sample-major, channel-minor LSB stream extracted by
`write_compressed_frame` for depths above 16 bits. -/
def lsbInterleave (bps : Nat) (channels : List (List Int)) (count : Nat) :
    List Nat :=
  joinAll ((List.range count).map (fun i =>
    channels.map (fun ch => lsbOf bps (ch.getD i 0))))

/-- Embedding of `write_interlaced_frame`: header, interlacing parameters,
channel correlation, both subframe headers, the optional LSB stream, then
both residual blocks. -/
def writeInterlacedFrame (opts : AlacOptions) (orc : CoeffOracle)
    (lsbU : Nat) (LSBs : List Nat) (shift lw : Nat)
    (ch0 ch1 : List Int) : Except Unit (List Bool) :=
  let hdr := frameHeaderBits opts ch0.length lsbU true ++
    writeBits 8 shift ++ writeBits 8 lw
  let corr := correlateChannels ch0 ch1 shift lw
  let n := opts.bitsPerSample - lsbU * 8 + 1
  match computeCoefficients opts.residualParams orc corr.1 n with
  | Except.error e => Except.error e
  | Except.ok (order0, qlp0, res0) =>
    match computeCoefficients opts.residualParams orc corr.2 n with
    | Except.error e => Except.error e
    | Except.ok (order1, qlp1, res1) =>
      Except.ok (hdr ++ subframeHeaderBits order0 qlp0 ++
        subframeHeaderBits order1 qlp1 ++
        (if 0 < lsbU then joinAll (LSBs.map (writeBits (lsbU * 8))) else []) ++
        res0 ++ res1)

/-- Embedding of `write_non_interlaced_frame` (single channel; interlacing
shift and leftweight fields written as zero). -/
def writeNonInterlacedFrame (opts : AlacOptions) (orc : CoeffOracle)
    (lsbU : Nat) (LSBs : List Nat) (channel : List Int) :
    Except Unit (List Bool) :=
  let hdr := frameHeaderBits opts channel.length lsbU true ++
    writeBits 8 0 ++ writeBits 8 0
  let n := opts.bitsPerSample - lsbU * 8
  match computeCoefficients opts.residualParams orc channel n with
  | Except.error e => Except.error e
  | Except.ok (order, qlp, res) =>
    Except.ok (hdr ++ subframeHeaderBits order qlp ++
      (if 0 < lsbU then joinAll (LSBs.map (writeBits (lsbU * 8))) else []) ++
      res)

/-- One candidate of the stereo leftweight search: an interlaced frame at
`INTERLACING_SHIFT = 2` and the given leftweight, with the LSB extraction
applied first for depths above 16. -/
def stereoCandidate (opts : AlacOptions) (orc : CoeffOracle)
    (channels : List (List Int)) (lw : Nat) : Except Unit (List Bool) :=
  if opts.bitsPerSample ≤ 16 then
    writeInterlacedFrame opts orc 0 [] 2 lw (channels.getD 0 [])
      (channels.getD 1 [])
  else
    let lsbU := (opts.bitsPerSample - 16) / 8
    let count := (channels.headD []).length
    let LSBs := lsbInterleave opts.bitsPerSample channels count
    let chMSB := channels.map (List.map (msbOf opts.bitsPerSample))
    writeInterlacedFrame opts orc lsbU LSBs 2 lw (chMSB.getD 0 [])
      (chMSB.getD 1 [])

/-- The leftweight search loop of `write_compressed_frame`: try each
candidate in order, keeping the strictly smaller one; the state is the
current best recorder's contents and its bit count (`UINT_MAX`
initially). -/
def searchBestFrame (cand : Nat → Except Unit (List Bool)) :
    List Nat → (List Bool × Nat) → Except Unit (List Bool × Nat)
  | [], st => Except.ok st
  | lw :: rest, st =>
    match cand lw with
    | Except.error e => Except.error e
    | Except.ok b =>
      if b.length < st.2 then searchBestFrame cand rest (b, b.length)
      else searchBestFrame cand rest st

/-- Embedding of `write_compressed_frame`.  The C nests the 1-vs-2-channel
split inside the bits-per-sample split with textually identical loops; the
embedding factors the common candidate into `stereoCandidate` and keys on
the channel count first, which preserves the behaviour of both branches. -/
def writeCompressedFrame (opts : AlacOptions) (orc : CoeffOracle)
    (channels : List (List Int)) : Except Unit (List Bool) :=
  if channels.length = 1 then
    if opts.bitsPerSample ≤ 16 then
      writeNonInterlacedFrame opts orc 0 [] (channels.headD [])
    else
      let lsbU := (opts.bitsPerSample - 16) / 8
      let count := (channels.headD []).length
      let LSBs := lsbInterleave opts.bitsPerSample channels count
      let chMSB := channels.map (List.map (msbOf opts.bitsPerSample))
      writeNonInterlacedFrame opts orc lsbU LSBs (chMSB.headD [])
  else
    (searchBestFrame (stereoCandidate opts orc channels)
      (List.range' opts.minLeftweight
        (opts.maxLeftweight + 1 - opts.minLeftweight))
      ([], 2 ^ 32 - 1)).map Prod.fst

/-- Embedding of `write_frame`: the 3-bit channel count, then — for ten or
more samples — the compressed attempt recorded aside and copied on
success, with the uncompressed frame written instead when the attempt
raises the residual-overflow condition; short blocks are always
uncompressed. -/
def writeFrame (opts : AlacOptions) (orc : CoeffOracle)
    (channels : List (List Int)) : List Bool :=
  writeBits 3 (channels.length - 1) ++
  (if 10 ≤ (channels.headD []).length then
    match writeCompressedFrame opts orc channels with
    | Except.ok b => b
    | Except.error _ => writeUncompressedFrame opts channels
  else
    writeUncompressedFrame opts channels)

theorem exceptToOption_eq_some {α : Type} (x : Except Unit α) (a : α) :
    x.toOption = some a ↔ x = Except.ok a := by
  cases x <;> simp [Except.toOption]

theorem exceptToOption_eq_none {α : Type} (x : Except Unit α) :
    x.toOption = none ↔ x = Except.error () := by
  cases x with
  | error e => cases e; simp [Except.toOption]
  | ok a => simp [Except.toOption]

theorem exceptMap_toOption_none {α β : Type} (x : Except Unit α)
    (f : α → β) : (x.map f).toOption = none ↔ x.toOption = none := by
  cases x <;> simp [Except.map, Except.toOption]

theorem leadingZeroCount_take (l : List Int) :
    ∀ x ∈ l.take (leadingZeroCount l), x = 0 := by
  induction l with
  | nil => intro x hx; simp at hx
  | cons r rest ih =>
    intro x hx
    by_cases hr : r = 0
    · rw [leadingZeroCount, if_pos hr] at hx
      rw [List.take_succ_cons] at hx
      rcases List.mem_cons.mp hx with h | h
      · rw [h, hr]
      · exact ih x h
    · rw [leadingZeroCount, if_neg hr] at hx
      simp at hx

theorem foldResidual_zero : foldResidual 0 = 0 := rfl

theorem encodeResidualsGo_error_iff (m mk n : Nat) :
    ∀ (fuel : Nat) (h : Int) (sm : Nat) (rs : List Int), rs.length ≤ fuel →
    ((encodeResidualsGo m mk n fuel h sm rs).toOption = none ↔
      ∃ r ∈ rs, 2 ^ n ≤ foldResidual r) := by
  intro fuel
  induction fuel with
  | zero =>
    intro h sm rs hlen
    cases rs with
    | nil => simp [encodeResidualsGo, Except.toOption]
    | cons r rest => simp at hlen
  | succ f ih =>
    intro h sm rs hlen
    cases rs with
    | nil => simp [encodeResidualsGo, Except.toOption]
    | cons r rest =>
      rw [encodeResidualsGo]
      by_cases hov : 2 ^ n ≤ foldResidual r
      · rw [if_pos hov]
        simp only [Except.toOption]
        constructor
        · intro _
          exact ⟨r, List.mem_cons_self r rest, hov⟩
        · intro _
          trivial
      · rw [if_neg hov]
        have hrlen : rest.length ≤ f := by simp at hlen; omega
        have hpow : 0 < 2 ^ n := Nat.pos_pow_of_pos n (by omega)
        by_cases h16 : foldResidual r ≤ 0xFFFF
        · rw [if_pos h16]
          by_cases hz : (histUpdate m h (foldResidual r) < 128 ∧ rest ≠ [])
          · rw [if_pos hz]
            rw [exceptMap_toOption_none]
            rw [ih 0 (if leadingZeroCount rest < 0xFFFF then 1 else 0)
              (rest.drop (leadingZeroCount rest))
              (by rw [List.length_drop]; omega)]
            constructor
            · rintro ⟨x, hx, hbig⟩
              exact ⟨x, List.mem_cons_of_mem r (List.mem_of_mem_drop hx),
                hbig⟩
            · rintro ⟨x, hx, hbig⟩
              rcases List.mem_cons.mp hx with hxr | hxrest
              · exact absurd (hxr ▸ hbig) hov
              · have hsplit : x ∈ rest.take (leadingZeroCount rest) ∨
                    x ∈ rest.drop (leadingZeroCount rest) := by
                  rw [← List.mem_append]
                  rw [List.take_append_drop]
                  exact hxrest
                rcases hsplit with htk | hdp
                · have hx0 : x = 0 := leadingZeroCount_take rest x htk
                  rw [hx0, foldResidual_zero] at hbig
                  omega
                · exact ⟨x, hdp, hbig⟩
          · rw [if_neg hz]
            rw [exceptMap_toOption_none]
            rw [ih (histUpdate m h (foldResidual r)) 0 rest hrlen]
            constructor
            · rintro ⟨x, hx, hbig⟩
              exact ⟨x, List.mem_cons_of_mem r hx, hbig⟩
            · rintro ⟨x, hx, hbig⟩
              rcases List.mem_cons.mp hx with hxr | hxrest
              · exact absurd (hxr ▸ hbig) hov
              · exact ⟨x, hxrest, hbig⟩
        · rw [if_neg h16]
          rw [exceptMap_toOption_none]
          rw [ih 0xFFFF 0 rest hrlen]
          constructor
          · rintro ⟨x, hx, hbig⟩
            exact ⟨x, List.mem_cons_of_mem r hx, hbig⟩
          · rintro ⟨x, hx, hbig⟩
            rcases List.mem_cons.mp hx with hxr | hxrest
            · exact absurd (hxr ▸ hbig) hov
            · exact ⟨x, hxrest, hbig⟩

/-- C4: `encode_residuals` raises the residual-overflow condition exactly
when some residual folds to `u ≥ 2^sample_size`; and whenever the
compressed-frame attempt raises it, `write_frame` emits the 3-bit channel
count followed by exactly the uncompressed frame — no bit of the aborted
compressed attempt (which went into a separate recorder) reaches the
output. -/
theorem residual_overflow_uncompressed_fallback :
    (∀ (p : ResidualParams) (n : Nat) (residuals : List Int),
      (encodeResiduals p n residuals).toOption = none ↔
        ∃ r ∈ residuals, 2 ^ n ≤ foldResidual r) ∧
    (∀ (opts : AlacOptions) (orc : CoeffOracle)
      (channels : List (List Int)),
      (writeCompressedFrame opts orc channels).toOption = none →
      writeFrame opts orc channels =
        writeBits 3 (channels.length - 1) ++
          writeUncompressedFrame opts channels) := by
  constructor
  · intro p n residuals
    exact encodeResidualsGo_error_iff p.historyMultiplier p.maximumK n
      residuals.length (p.initialHistory : Int) 0 residuals (le_refl _)
  · intro opts orc channels hnone
    rw [writeFrame]
    by_cases hlen : 10 ≤ (channels.headD []).length
    · rw [if_pos hlen]
      rw [(exceptToOption_eq_none _).mp hnone]
    · rw [if_neg hlen]

/-- A coefficient oracle for witnesses: nonzero autocorrelation with
all-zero quantised coefficients at both orders. -/
def demoOracle : CoeffOracle :=
  fun _ _ => (true, ([0, 0, 0, 0], [0, 0, 0, 0, 0, 0, 0, 0]))

/-- Concrete options for witnesses: block size 10 and the default
residual-coder and leftweight parameters at 16 bits per sample. -/
def demoOpts : AlacOptions :=
  { blockSize := 10, initialHistory := 10, historyMultiplier := 40,
    maximumK := 14, minLeftweight := 0, maxLeftweight := 4,
    bitsPerSample := 16 }

/-- Witness for C4: the sample 40000 folds to 80000 ≥ 2^16, the compressed
attempt overflows, and the frame comes out as channel bits plus the
uncompressed frame. -/
theorem residual_overflow_uncompressed_fallback_witness :
    writeFrame demoOpts demoOracle [[40000, 0, 0, 0, 0, 0, 0, 0, 0, 0]] =
      writeBits 3 ([[40000, 0, 0, 0, 0, 0, 0, 0, 0, 0]].length - 1) ++
        writeUncompressedFrame demoOpts
          [[40000, 0, 0, 0, 0, 0, 0, 0, 0, 0]] :=
  residual_overflow_uncompressed_fallback.2 demoOpts demoOracle
    [[40000, 0, 0, 0, 0, 0, 0, 0, 0, 0]] (by decide)

/-- C5: for every block whose autocorrelation `R[0]` is nonzero,
`compute_coefficients` selects LPC order 4 exactly when the order-4
residual block is strictly shorter than the order-8 residual block plus 64
bits, and otherwise selects order 8. -/
theorem lpc_order_selection (p : ResidualParams) (orc : CoeffOracle)
    (samples : List Int) (n order : Nat) (qlp : List Int)
    (bits b4 b8 : List Bool)
    (hr0 : (orc samples n).1 = true)
    (hb4 : (encodeResiduals p n
      (calculateResiduals n samples 4 (orc samples n).2.1)).toOption =
        some b4)
    (hb8 : (encodeResiduals p n
      (calculateResiduals n samples 8 (orc samples n).2.2)).toOption =
        some b8)
    (hres : (computeCoefficients p orc samples n).toOption =
      some (order, qlp, bits)) :
    (order = 4 ↔ b4.length < b8.length + 64) ∧ (order = 4 ∨ order = 8) := by
  rw [exceptToOption_eq_some] at hb4 hb8 hres
  simp only [computeCoefficients, hr0, if_true, hb4, hb8] at hres
  by_cases hcmp : b4.length < b8.length + 64
  · rw [if_pos hcmp] at hres
    have h4 : order = 4 := by
      simp only [Except.ok.injEq, Prod.mk.injEq] at hres
      omega
    exact ⟨⟨fun _ => hcmp, fun _ => h4⟩, Or.inl h4⟩
  · rw [if_neg hcmp] at hres
    have h8 : order = 8 := by
      simp only [Except.ok.injEq, Prod.mk.injEq] at hres
      omega
    refine ⟨⟨fun h4 => absurd (h4 ▸ h8) (by omega), fun hlt => absurd hlt hcmp⟩,
      Or.inr h8⟩

/-- Witness for C5 on a zero block of ten samples, where both residual
blocks are six bits long and order 4 wins. -/
theorem lpc_order_selection_witness :
    ((4 : Nat) = 4 ↔
      ([false, false, true, false, true, false] : List Bool).length <
        ([false, false, true, false, true, false] : List Bool).length + 64) ∧
    ((4 : Nat) = 4 ∨ (4 : Nat) = 8) :=
  lpc_order_selection demoOpts.residualParams demoOracle
    (List.replicate 10 0) 16 4 [0, 0, 0, 0]
    [false, false, true, false, true, false]
    [false, false, true, false, true, false]
    [false, false, true, false, true, false]
    (by decide) (by decide) (by decide) (by decide)

theorem searchBestFrame_all_ok (cand : Nat → Except Unit (List Bool)) :
    ∀ (lws : List Nat) (st out : List Bool × Nat),
    searchBestFrame cand lws st = Except.ok out →
    ∀ lw ∈ lws, ∃ c, cand lw = Except.ok c := by
  intro lws
  induction lws with
  | nil => intro st out hrun lw hlw; simp at hlw
  | cons a rest ih =>
    intro st out hrun lw hlw
    rw [searchBestFrame] at hrun
    cases hc : cand a with
    | error e => rw [hc] at hrun; simp at hrun
    | ok b =>
      rw [hc] at hrun
      simp only at hrun
      rcases List.mem_cons.mp hlw with h | h
      · subst h
        exact ⟨b, hc⟩
      · by_cases hlt : b.length < st.2
        · rw [if_pos hlt] at hrun
          exact ih _ out hrun lw h
        · rw [if_neg hlt] at hrun
          exact ih st out hrun lw h

theorem searchBestFrame_spec (cand : Nat → Except Unit (List Bool)) :
    ∀ (lws : List Nat) (st out : List Bool × Nat),
    searchBestFrame cand lws st = Except.ok out →
    (∀ lw ∈ lws, ∀ c, cand lw = Except.ok c → out.2 ≤ c.length) ∧
    out.2 ≤ st.2 ∧
    (out = st ∨
      ∃ l1 lw2 l2, lws = l1 ++ lw2 :: l2 ∧ cand lw2 = Except.ok out.1 ∧
        out.2 = out.1.length ∧ out.2 < st.2 ∧
        (∀ x ∈ l1, ∀ c, cand x = Except.ok c → out.2 < c.length)) := by
  intro lws
  induction lws with
  | nil =>
    intro st out hrun
    rw [searchBestFrame] at hrun
    simp only [Except.ok.injEq] at hrun
    subst hrun
    exact ⟨by intro lw hlw; simp at hlw, le_refl _, Or.inl rfl⟩
  | cons a rest ih =>
    intro st out hrun
    rw [searchBestFrame] at hrun
    cases hc : cand a with
    | error e => rw [hc] at hrun; simp at hrun
    | ok b =>
      rw [hc] at hrun
      simp only at hrun
      by_cases hlt : b.length < st.2
      · rw [if_pos hlt] at hrun
        obtain ⟨hmin, hle, hcase⟩ := ih (b, b.length) out hrun
        refine ⟨?_, by omega, ?_⟩
        · intro lw hlw c hcw
          rcases List.mem_cons.mp hlw with h | h
          · have hbc : b = c := by
              rw [h, hc] at hcw
              exact Except.ok.inj hcw
            subst hbc
            omega
          · exact hmin lw h c hcw
        · rcases hcase with hout | ⟨l1, lw2, l2, hsplit, hok2, hlen2, hlt2, hall⟩
          · refine Or.inr ⟨[], a, rest, rfl, ?_, ?_, ?_, ?_⟩
            · rw [hout, hc]
            · rw [hout]
            · rw [hout]; exact hlt
            · intro x hx; simp at hx
          · refine Or.inr ⟨a :: l1, lw2, l2, by rw [hsplit]; rfl, hok2, hlen2,
              by omega, ?_⟩
            intro x hx c hcw
            rcases List.mem_cons.mp hx with h | h
            · have hbc : b = c := by
                rw [h, hc] at hcw
                exact Except.ok.inj hcw
              subst hbc
              omega
            · exact hall x h c hcw
      · rw [if_neg hlt] at hrun
        obtain ⟨hmin, hle, hcase⟩ := ih st out hrun
        refine ⟨?_, hle, ?_⟩
        · intro lw hlw c hcw
          rcases List.mem_cons.mp hlw with h | h
          · have hbc : b = c := by
              rw [h, hc] at hcw
              exact Except.ok.inj hcw
            subst hbc
            omega
          · exact hmin lw h c hcw
        · rcases hcase with hout | ⟨l1, lw2, l2, hsplit, hok2, hlen2, hlt2, hall⟩
          · exact Or.inl hout
          · refine Or.inr ⟨a :: l1, lw2, l2, by rw [hsplit]; rfl, hok2, hlen2,
              hlt2, ?_⟩
            intro x hx c hcw
            rcases List.mem_cons.mp hx with h | h
            · have hbc : b = c := by
                rw [h, hc] at hcw
                exact Except.ok.inj hcw
              subst hbc
              omega
            · exact hall x h c hcw

theorem range'_split_lt :
    ∀ (n a : Nat) (l1 : List Nat) (b : Nat) (l2 : List Nat),
    List.range' a n = l1 ++ b :: l2 → ∀ x ∈ l1, x < b := by
  intro n
  induction n with
  | zero =>
    intro a l1 b l2 heq x hx
    simp [List.range'] at heq
  | succ k ih =>
    intro a l1 b l2 heq x hx
    rw [List.range'_succ] at heq
    cases l1 with
    | nil => simp at hx
    | cons y t1 =>
      simp only [List.cons_append, List.cons.injEq] at heq
      obtain ⟨hya, hrest⟩ := heq
      rcases List.mem_cons.mp hx with h | h
      · have hb : b ∈ List.range' (a + 1) k := by
          rw [hrest]
          exact List.mem_append_right t1 (List.mem_cons_self b l2)
        have := (List.mem_range'_1.mp hb).1
        omega
      · exact ih (a + 1) t1 b l2 hrest x h

theorem range'_split_gt :
    ∀ (n a : Nat) (l1 : List Nat) (b : Nat) (l2 : List Nat),
    List.range' a n = l1 ++ b :: l2 → ∀ x ∈ l2, b < x := by
  intro n
  induction n with
  | zero =>
    intro a l1 b l2 heq x hx
    simp [List.range'] at heq
  | succ k ih =>
    intro a l1 b l2 heq x hx
    rw [List.range'_succ] at heq
    cases l1 with
    | nil =>
      simp only [List.nil_append, List.cons.injEq] at heq
      obtain ⟨hba, hrest⟩ := heq
      have hx2 : x ∈ List.range' (a + 1) k := by
        rw [hrest]
        exact hx
      have := (List.mem_range'_1.mp hx2).1
      omega
    | cons y t1 =>
      simp only [List.cons_append, List.cons.injEq] at heq
      exact ih (a + 1) t1 b l2 heq.2 x hx

theorem exceptMap_fst_ok {α β : Type} (x : Except Unit (α × β)) (b : α)
    (h : x.map Prod.fst = Except.ok b) :
    ∃ out, x = Except.ok out ∧ out.1 = b := by
  cases x with
  | error e => simp [Except.map] at h
  | ok out => exact ⟨out, rfl, Except.ok.inj h⟩

/-- C6: for every stereo compressed frame that is emitted, its bits are
those of an interlaced candidate (shift fixed to 2) at some leftweight in
the search range whose bit length is minimal over the whole range, and any
smaller leftweight produces a strictly longer candidate — ties go to the
smallest leftweight. -/
theorem leftweight_search_minimal (opts : AlacOptions) (orc : CoeffOracle)
    (channels : List (List Int)) (bits : List Bool)
    (hst : channels.length = 2)
    (hrange : opts.minLeftweight ≤ opts.maxLeftweight)
    (hok : (writeCompressedFrame opts orc channels).toOption = some bits)
    (hbound : ∀ lw ∈ List.range' opts.minLeftweight
        (opts.maxLeftweight + 1 - opts.minLeftweight),
      ((stereoCandidate opts orc channels lw).toOption.map
        List.length).getD 0 < 2 ^ 32 - 1) :
    ∃ lwStar, opts.minLeftweight ≤ lwStar ∧
      lwStar ≤ opts.maxLeftweight ∧
      stereoCandidate opts orc channels lwStar = Except.ok bits ∧
      (∀ lw, opts.minLeftweight ≤ lw → lw ≤ opts.maxLeftweight →
        ∀ c, stereoCandidate opts orc channels lw = Except.ok c →
          bits.length ≤ c.length) ∧
      (∀ lw, opts.minLeftweight ≤ lw → lw < lwStar →
        ∀ c, stereoCandidate opts orc channels lw = Except.ok c →
          bits.length < c.length) := by
  rw [exceptToOption_eq_some] at hok
  rw [writeCompressedFrame, if_neg (by omega)] at hok
  obtain ⟨out, hs, houtb⟩ := exceptMap_fst_ok _ _ hok
  obtain ⟨hmin, hle, hcase⟩ := searchBestFrame_spec _ _ _ _ hs
  have hallok := searchBestFrame_all_ok _ _ _ _ hs
  have hn1 : 1 ≤ opts.maxLeftweight + 1 - opts.minLeftweight := by omega
  have hmem0 : opts.minLeftweight ∈ List.range' opts.minLeftweight
      (opts.maxLeftweight + 1 - opts.minLeftweight) :=
    List.mem_range'_1.mpr ⟨le_refl _, by omega⟩
  obtain ⟨c0, hc0⟩ := hallok _ hmem0
  have hb0 : c0.length < 2 ^ 32 - 1 := by
    have := hbound _ hmem0
    rw [hc0] at this
    simpa [Except.toOption] using this
  rcases hcase with hout | ⟨l1, lw2, l2, hsplit, hok2, hlen2, hlt2, hall⟩
  · exfalso
    have h1 := hmin _ hmem0 c0 hc0
    rw [hout] at h1
    simp at h1
    omega
  · have hmem2 : lw2 ∈ List.range' opts.minLeftweight
        (opts.maxLeftweight + 1 - opts.minLeftweight) := by
      rw [hsplit]
      exact List.mem_append_right l1 (List.mem_cons_self lw2 l2)
    obtain ⟨hlo2, hhi2⟩ := List.mem_range'_1.mp hmem2
    have hbl : out.1.length = bits.length := by rw [houtb]
    refine ⟨lw2, hlo2, by omega, by rw [hok2, houtb], ?_, ?_⟩
    · intro lw h1 h2 c hcw
      have hmem : lw ∈ List.range' opts.minLeftweight
          (opts.maxLeftweight + 1 - opts.minLeftweight) :=
        List.mem_range'_1.mpr ⟨h1, by omega⟩
      have := hmin lw hmem c hcw
      omega
    · intro lw h1 hlw c hcw
      have hmem : lw ∈ List.range' opts.minLeftweight
          (opts.maxLeftweight + 1 - opts.minLeftweight) :=
        List.mem_range'_1.mpr ⟨h1, by omega⟩
      have hl1 : lw ∈ l1 := by
        rw [hsplit] at hmem
        rcases List.mem_append.mp hmem with h | h
        · exact h
        · rcases List.mem_cons.mp h with h2 | h2
          · omega
          · have := range'_split_gt _ _ _ _ _ hsplit lw h2
            omega
      have := hall lw hl1 c hcw
      omega

/-- Concrete stereo block for the C6 witness: two identical zero
channels. -/
def demoStereo : List (List Int) :=
  [List.replicate 10 0, List.replicate 10 0]

set_option maxRecDepth 100000 in
/-- Witness for C6 on the zero stereo block at the default search range. -/
theorem leftweight_search_minimal_witness :
    ∃ lwStar, demoOpts.minLeftweight ≤ lwStar ∧
      lwStar ≤ demoOpts.maxLeftweight ∧
      stereoCandidate demoOpts demoOracle demoStereo lwStar =
        Except.ok ((writeCompressedFrame demoOpts demoOracle
          demoStereo).toOption.getD []) ∧
      (∀ lw, demoOpts.minLeftweight ≤ lw → lw ≤ demoOpts.maxLeftweight →
        ∀ c, stereoCandidate demoOpts demoOracle demoStereo lw =
            Except.ok c →
          ((writeCompressedFrame demoOpts demoOracle
            demoStereo).toOption.getD []).length ≤ c.length) ∧
      (∀ lw, demoOpts.minLeftweight ≤ lw → lw < lwStar →
        ∀ c, stereoCandidate demoOpts demoOracle demoStereo lw =
            Except.ok c →
          ((writeCompressedFrame demoOpts demoOracle
            demoStereo).toOption.getD []).length < c.length) :=
  leftweight_search_minimal demoOpts demoOracle demoStereo
    ((writeCompressedFrame demoOpts demoOracle demoStereo).toOption.getD [])
    rfl (by decide) (by decide) (by decide)

end Alac
